import Mathlib

/-!
Verification of the streaming agent loop of `build-your-own-code-agent`.

The file embeds, as executable Lean definitions:
* the reasoning-stage classifier `detectReasoningStage` of
  `src/7-reasoning-response/console-reasoning.ts` (lines 48-75),
* the console turn-label state machines of `src/console.ts` and
  `src/7-reasoning-response/console-reasoning.ts`,
* the agent loop and tool dispatcher; their code (`agent.ts`) is not under
  `src/`, so those definitions are modelled from the specification.

Strings are modelled as Lean `String`/`List Char`; `toLowerCase` is modelled
per-character on the ASCII range (the classifier keywords are all ASCII).
The JavaScript regex metacharacters `\b` and `\w` are embedded explicitly:
`\w` is `[A-Za-z0-9_]` and `\b` is a transition between word and non-word
characters, exactly as in JavaScript regexes without the `u` flag.
-/

namespace CodeAgent

/-- The five reasoning stages of `ReasoningStage` in
`src/7-reasoning-response/types.ts`. -/
inductive ReasoningStage
  | analyzing
  | planning
  | deciding
  | executing
  | evaluating
deriving DecidableEq, Repr

/-- JavaScript regex word character `\w`, i.e. `[A-Za-z0-9_]`
(no `u` flag is set on the source regexes). -/
def isWordChar (c : Char) : Bool :=
  ('a' ≤ c && c ≤ 'z') || ('A' ≤ c && c ≤ 'Z') || ('0' ≤ c && c ≤ '9') || c == '_'

/-- ASCII lowercasing of one character, modelling the effect of
`text.toLowerCase()` on the characters that can take part in a keyword match. -/
def lowerChar (c : Char) : Char :=
  match c with
  | 'A' => 'a' | 'B' => 'b' | 'C' => 'c' | 'D' => 'd' | 'E' => 'e'
  | 'F' => 'f' | 'G' => 'g' | 'H' => 'h' | 'I' => 'i' | 'J' => 'j'
  | 'K' => 'k' | 'L' => 'l' | 'M' => 'm' | 'N' => 'n' | 'O' => 'o'
  | 'P' => 'p' | 'Q' => 'q' | 'R' => 'r' | 'S' => 's' | 'T' => 't'
  | 'U' => 'u' | 'V' => 'v' | 'W' => 'w' | 'X' => 'x' | 'Y' => 'y'
  | 'Z' => 'z'
  | c => c

/-- The lowercased character sequence of a string (`const lower = text.toLowerCase()`). -/
def lowerStr (s : String) : List Char := s.data.map lowerChar

/-- `hasPfx tok t` holds when `tok` is a prefix of `t`. -/
def hasPfx : List Char → List Char → Bool
  | [], _ => true
  | _ :: _, [] => false
  | c :: cs, d :: ds => c == d && hasPfx cs ds

/-- `hasWordAt tok t` holds when `t` starts with `tok` and the character
following `tok` (if any) is a non-word character, i.e. the occurrence ends at a
`\b` word boundary. -/
def hasWordAt : List Char → List Char → Bool
  | [], [] => true
  | [], d :: _ => !isWordChar d
  | _ :: _, [] => false
  | c :: cs, d :: ds => c == d && hasWordAt cs ds

/-- A token spec: the token characters and whether the occurrence must end at a
word boundary (`true`, e.g. `implement(?:ing|ed)?` followed by `\b`) or may be
an arbitrary word prefix (`false`, e.g. `evaluat\w*`). -/
def specAt (sp : List Char × Bool) (t : List Char) : Bool :=
  if sp.2 then hasWordAt sp.1 t else hasPfx sp.1 t

/-- Does any token of the family match at the start of `t`? -/
def anySpec (sps : List (List Char × Bool)) (t : List Char) : Bool :=
  sps.any (fun sp => specAt sp t)

/-- Scan the text for a family match; `atB` records whether the current
position sits at a `\b` word boundary (start of string, or the previous
character is a non-word character). This embeds `regex.test(lower)` for the
regexes of the classifier, all of which start with `\b`. -/
def scanTokens (sps : List (List Char × Bool)) : Bool → List Char → Bool
  | _, [] => false
  | atB, c :: cs => (atB && anySpec sps (c :: cs)) || scanTokens sps (!(isWordChar c)) cs

/-- Tokens of `/\b(evaluat|validat|verif|check)\w*\b/`: each alternative is a
word-start prefix; the trailing `\w*\b` is always satisfiable after a match. -/
def evalSpecs : List (List Char × Bool) :=
  [("evaluat".data, false), ("validat".data, false), ("verif".data, false),
   ("check".data, false)]

/-- Tokens of `/\b(execut\w*|implement(?:ing|ed)?|writ(?:ing|e|ten))\b/`:
`execut` is a word-start prefix (its `\w*` absorbs the trailing `\b`); the
`implement(?:ing|ed)?` and `writ(?:ing|e|ten)` alternatives are whole words. -/
def execSpecs : List (List Char × Bool) :=
  [("execut".data, false),
   ("implement".data, true), ("implementing".data, true), ("implemented".data, true),
   ("write".data, true), ("writing".data, true), ("written".data, true)]

/-- Tokens of `/\b(decid|choos|select|determin)\w*\b/`. -/
def decidSpecs : List (List Char × Bool) :=
  [("decid".data, false), ("choos".data, false), ("select".data, false),
   ("determin".data, false)]

/-- Tokens of `/\b(plan\w*|design|approach|strateg)\w*\b/` (the doubled `\w*`
collapses, so every alternative is a word-start prefix). -/
def planSpecs : List (List Char × Bool) :=
  [("plan".data, false), ("design".data, false), ("approach".data, false),
   ("strateg".data, false)]

/-- The Evaluating-family test of `detectReasoningStage` (line 54). -/
def hasEvalFamily (s : String) : Bool := scanTokens evalSpecs true (lowerStr s)

/-- The Executing-family test of `detectReasoningStage` (line 59). -/
def hasExecFamily (s : String) : Bool := scanTokens execSpecs true (lowerStr s)

/-- The Deciding-family test of `detectReasoningStage` (line 64). -/
def hasDecidFamily (s : String) : Bool := scanTokens decidSpecs true (lowerStr s)

/-- The Planning-family test of `detectReasoningStage` (line 69). -/
def hasPlanFamily (s : String) : Bool := scanTokens planSpecs true (lowerStr s)

/-- `detectReasoningStage` of `src/7-reasoning-response/console-reasoning.ts`
(lines 48-75): a fixed priority cascade over the four keyword families,
defaulting to `analyzing`. -/
def detectReasoningStage (text : String) : ReasoningStage :=
  if hasEvalFamily text then ReasoningStage.evaluating
  else if hasExecFamily text then ReasoningStage.executing
  else if hasDecidFamily text then ReasoningStage.deciding
  else if hasPlanFamily text then ReasoningStage.planning
  else ReasoningStage.analyzing

/-- Does the string begin with a non-word character (or is it empty)?  Used to
state when appending a fragment cannot interact with a word-boundary match at
the seam. -/
def nwHead : List Char → Bool
  | [] => true
  | c :: _ => !isWordChar c

/-- String-level version of `nwHead`. -/
def headNonWord (t : String) : Bool := nwHead t.data

/-- A well-formed token spec: nonempty and made of word characters only
(every keyword of the classifier satisfies this). -/
def goodSpec (sp : List Char × Bool) : Bool := (!sp.1.isEmpty) && sp.1.all isWordChar

/-- All specs of a family are well-formed. -/
def goodSpecs (sps : List (List Char × Bool)) : Bool := sps.all goodSpec

/-- The fragment contains no keyword of any of the four stage families. -/
def noStageKeyword (t : String) : Bool :=
  !(hasEvalFamily t || hasExecFamily t || hasDecidFamily t || hasPlanFamily t)

end CodeAgent

namespace CodeAgent

theorem isWordChar_lowerChar (c : Char) : isWordChar (lowerChar c) = isWordChar c := by
  unfold lowerChar
  split <;> rfl

theorem word_ne_nonword {a d : Char} (ha : isWordChar a = true)
    (hd : isWordChar d = false) : (a == d) = false := by
  rw [beq_eq_false_iff_ne]
  intro h
  subst h
  rw [ha] at hd
  exact Bool.noConfusion hd

theorem hasPfx_append (T : List Char) (hT : nwHead T = true) :
    ∀ tok : List Char, tok.all isWordChar = true →
      ∀ u, hasPfx tok (u ++ T) = hasPfx tok u := by
  intro tok
  induction tok with
  | nil => intro _ u; rfl
  | cons a as ih =>
    intro hw u
    rw [List.all_cons, Bool.and_eq_true] at hw
    cases u with
    | nil =>
      rw [List.nil_append]
      cases T with
      | nil => rfl
      | cons d ds =>
        have hd : isWordChar d = false := by
          simpa [nwHead] using hT
        simp [hasPfx, word_ne_nonword hw.1 hd]
    | cons b bs =>
      show (a == b && hasPfx as (bs ++ T)) = (a == b && hasPfx as bs)
      rw [ih hw.2 bs]

theorem hasWordAt_append (T : List Char) (hT : nwHead T = true) :
    ∀ tok : List Char, tok.all isWordChar = true →
      ∀ u, hasWordAt tok (u ++ T) = hasWordAt tok u := by
  intro tok
  induction tok with
  | nil =>
    intro _ u
    cases u with
    | nil =>
      rw [List.nil_append]
      cases T with
      | nil => rfl
      | cons d ds =>
        have hd : isWordChar d = false := by
          simpa [nwHead] using hT
        simp [hasWordAt, hd]
    | cons b bs => rfl
  | cons a as ih =>
    intro hw u
    rw [List.all_cons, Bool.and_eq_true] at hw
    cases u with
    | nil =>
      rw [List.nil_append]
      cases T with
      | nil => rfl
      | cons d ds =>
        have hd : isWordChar d = false := by
          simpa [nwHead] using hT
        simp [hasWordAt, word_ne_nonword hw.1 hd]
    | cons b bs =>
      show (a == b && hasWordAt as (bs ++ T)) = (a == b && hasWordAt as bs)
      rw [ih hw.2 bs]

theorem specAt_append (sp : List Char × Bool) (hg : goodSpec sp = true)
    (T : List Char) (hT : nwHead T = true) (u : List Char) :
    specAt sp (u ++ T) = specAt sp u := by
  rw [goodSpec, Bool.and_eq_true] at hg
  obtain ⟨tok, whole⟩ := sp
  cases whole with
  | true => exact hasWordAt_append T hT tok hg.2 u
  | false => exact hasPfx_append T hT tok hg.2 u

theorem anySpec_append (sps : List (List Char × Bool)) (hg : goodSpecs sps = true)
    (T : List Char) (hT : nwHead T = true) (u : List Char) :
    anySpec sps (u ++ T) = anySpec sps u := by
  induction sps with
  | nil => rfl
  | cons sp rest ih =>
    rw [goodSpecs, List.all_cons, Bool.and_eq_true] at hg
    show (specAt sp (u ++ T) || anySpec rest (u ++ T)) = (specAt sp u || anySpec rest u)
    rw [specAt_append sp hg.1 T hT u, ih hg.2]

theorem specAt_nonword_head (sp : List Char × Bool) (hg : goodSpec sp = true)
    (d : Char) (ds : List Char) (hd : isWordChar d = false) :
    specAt sp (d :: ds) = false := by
  rw [goodSpec, Bool.and_eq_true] at hg
  obtain ⟨tok, whole⟩ := sp
  cases tok with
  | nil => exact absurd hg.1 (by simp)
  | cons a as =>
    have ha : isWordChar a = true := by
      rw [List.all_cons, Bool.and_eq_true] at hg
      exact hg.2.1
    cases whole with
    | true => simp [specAt, hasWordAt, word_ne_nonword ha hd]
    | false => simp [specAt, hasPfx, word_ne_nonword ha hd]

theorem anySpec_nonword_head (sps : List (List Char × Bool)) (hg : goodSpecs sps = true)
    (d : Char) (ds : List Char) (hd : isWordChar d = false) :
    anySpec sps (d :: ds) = false := by
  induction sps with
  | nil => rfl
  | cons sp rest ih =>
    rw [goodSpecs, List.all_cons, Bool.and_eq_true] at hg
    show (specAt sp (d :: ds) || anySpec rest (d :: ds)) = false
    rw [specAt_nonword_head sp hg.1 d ds hd, ih hg.2, Bool.or_false]

theorem scanTokens_flag (sps : List (List Char × Bool)) (hg : goodSpecs sps = true)
    (T : List Char) (hT : nwHead T = true) (b1 b2 : Bool) :
    scanTokens sps b1 T = scanTokens sps b2 T := by
  cases T with
  | nil => rfl
  | cons d ds =>
    have hd : isWordChar d = false := by simpa [nwHead] using hT
    show (b1 && anySpec sps (d :: ds) || _) = (b2 && anySpec sps (d :: ds) || _)
    rw [anySpec_nonword_head sps hg d ds hd]
    simp

theorem scanTokens_append (sps : List (List Char × Bool)) (hg : goodSpecs sps = true)
    (T : List Char) (hT : nwHead T = true) :
    ∀ (u : List Char) (b : Bool),
      scanTokens sps b (u ++ T) = (scanTokens sps b u || scanTokens sps true T) := by
  intro u
  induction u with
  | nil =>
    intro b
    show scanTokens sps b T = (false || scanTokens sps true T)
    rw [Bool.false_or]
    exact scanTokens_flag sps hg T hT b true
  | cons c cs ih =>
    intro b
    show (b && anySpec sps ((c :: cs) ++ T) || scanTokens sps (!(isWordChar c)) (cs ++ T))
        = ((b && anySpec sps (c :: cs) || scanTokens sps (!(isWordChar c)) cs)
            || scanTokens sps true T)
    rw [anySpec_append sps hg T hT (c :: cs), ih (!(isWordChar c)), Bool.or_assoc]

theorem str_data_append (s t : String) : (s ++ t).data = s.data ++ t.data := by
  cases s
  cases t
  rfl

theorem lowerStr_append (s t : String) : lowerStr (s ++ t) = lowerStr s ++ lowerStr t := by
  rw [lowerStr, lowerStr, lowerStr, str_data_append, List.map_append]

theorem nwHead_lowerStr (t : String) (hT : headNonWord t = true) :
    nwHead (lowerStr t) = true := by
  rw [headNonWord] at hT
  rw [lowerStr]
  cases h : t.data with
  | nil => rfl
  | cons d ds =>
    rw [h] at hT
    show (!isWordChar (lowerChar d)) = true
    rw [isWordChar_lowerChar]
    exact hT

theorem scanFamily_append (sps : List (List Char × Bool)) (hg : goodSpecs sps = true)
    (s t : String) (hT : headNonWord t = true) :
    scanTokens sps true (lowerStr (s ++ t))
      = (scanTokens sps true (lowerStr s) || scanTokens sps true (lowerStr t)) := by
  rw [lowerStr_append]
  exact scanTokens_append sps hg (lowerStr t) (nwHead_lowerStr t hT) (lowerStr s) true

theorem hasEvalFamily_append (s t : String) (hT : headNonWord t = true) :
    hasEvalFamily (s ++ t) = (hasEvalFamily s || hasEvalFamily t) :=
  scanFamily_append evalSpecs (by decide) s t hT

theorem hasExecFamily_append (s t : String) (hT : headNonWord t = true) :
    hasExecFamily (s ++ t) = (hasExecFamily s || hasExecFamily t) :=
  scanFamily_append execSpecs (by decide) s t hT

theorem hasDecidFamily_append (s t : String) (hT : headNonWord t = true) :
    hasDecidFamily (s ++ t) = (hasDecidFamily s || hasDecidFamily t) :=
  scanFamily_append decidSpecs (by decide) s t hT

theorem hasPlanFamily_append (s t : String) (hT : headNonWord t = true) :
    hasPlanFamily (s ++ t) = (hasPlanFamily s || hasPlanFamily t) :=
  scanFamily_append planSpecs (by decide) s t hT

/-- A console write observable at the terminal: the speaker-label prefix write
(`Claude ›`), a raw content write, or the turn-closing blank line. -/
inductive OutEvent
  | labelWrite
  | contentWrite (s : String)
  | newline
deriving DecidableEq, Repr

/-- Number of speaker-label emissions in an output trace. -/
def labelCount : List OutEvent → Nat
  | [] => 0
  | OutEvent.labelWrite :: rest => 1 + labelCount rest
  | _ :: rest => labelCount rest

/-- Number of turn-closing newline emissions in an output trace. -/
def newlineCount : List OutEvent → Nat
  | [] => 0
  | OutEvent.newline :: rest => 1 + newlineCount rest
  | _ :: rest => newlineCount rest

end CodeAgent

namespace CodeAgent.ConsoleOut

/-- `console_out.claude` of `src/console.ts` (lines 34-41): the state is the
module-level `claudeTurnStarted` flag; on the first call of a turn the line is
printed with the `Claude:` prefix and the flag is set, afterwards raw text
only. -/
def claude (st : Bool) (text : String) : Bool × List OutEvent :=
  if st then (st, [OutEvent.contentWrite text])
  else (true, [OutEvent.labelWrite, OutEvent.contentWrite text])

/-- `console_out.finishClaudeTurn` of `src/console.ts` (lines 47-52): prints a
blank line and clears the flag only if the turn had started. -/
def finishClaudeTurn (st : Bool) : Bool × List OutEvent :=
  if st then (false, [OutEvent.newline]) else (st, [])

end CodeAgent.ConsoleOut

namespace CodeAgent.ConsoleReasoning

/-- The module-level mutable flags of
`src/7-reasoning-response/console-reasoning.ts` (lines 11-12):
`claudeTurnStarted` and `reasoningBlockActive`. -/
structure State where
  claudeTurnStarted : Bool
  reasoningBlockActive : Bool
deriving DecidableEq, Repr

/-- `console_reasoning.claudeStream` (lines 117-123): on the first text delta
of a turn it writes the `Claude ›` prefix and sets `claudeTurnStarted`; every
delta then writes its raw content. -/
def claudeStream (st : State) (delta : String) : State × List CodeAgent.OutEvent :=
  if st.claudeTurnStarted then (st, [CodeAgent.OutEvent.contentWrite delta])
  else ({ st with claudeTurnStarted := true },
        [CodeAgent.OutEvent.labelWrite, CodeAgent.OutEvent.contentWrite delta])

/-- `console_reasoning.finishClaudeTurn` (lines 186-192): prints the
turn-closing newline and clears `claudeTurnStarted` only if the turn had
started; always clears `reasoningBlockActive`. -/
def finishClaudeTurn (st : State) : State × List CodeAgent.OutEvent :=
  if st.claudeTurnStarted
  then ({ claudeTurnStarted := false, reasoningBlockActive := false },
        [CodeAgent.OutEvent.newline])
  else ({ st with reasoningBlockActive := false }, [])

/-- Fold `claudeStream` over a sequence of consecutive text deltas, collecting
the console writes in order. -/
def streamRun (st : State) : List String → State × List CodeAgent.OutEvent
  | [] => (st, [])
  | d :: ds =>
    let r1 := claudeStream st d
    let r2 := streamRun r1.1 ds
    (r2.1, r1.2 ++ r2.2)

end CodeAgent.ConsoleReasoning

namespace CodeAgent

/-- The role of a turn (`user` or `assistant`). -/
inductive Role
  | user
  | assistant
deriving DecidableEq, Repr

/-- A conversation content block: `text{value}`, `tool_use{id, name, input}` or
`tool_result{tool_use_id, content, is_error}` (spec §3).  Tool inputs are kept
as their serialized form. -/
inductive ContentBlock
  | text (value : String)
  | toolUse (id name input : String)
  | toolResult (toolUseId content : String) (isError : Bool)
deriving DecidableEq, Repr

/-- One turn of the conversation: a role and its ordered content blocks. -/
structure Turn where
  role : Role
  blocks : List ContentBlock
deriving DecidableEq, Repr

/-- A finalized `tool_use` block as collected from the stream. -/
structure ToolUseBlock where
  id : String
  name : String
  input : String
deriving DecidableEq, Repr

/-- Modelled from the spec: the tool contract of §6 (`agent.ts` and the tool
modules are not under `src/`): a registered tool exposes a name and an
`execute` that either returns a string or rejects with a failure message. -/
structure ToolDef where
  name : String
  execute : String → Except String String

/-- The outcome of one tool dispatch (`ToolOutcome` of spec §3). -/
structure ToolOutcome where
  toolUseId : String
  content : String
  isError : Bool
deriving DecidableEq, Repr

/-- A content block finalized by the stream demultiplexer for one assistant
turn (spec §4.3): text, thinking, or a finalized tool call. -/
inductive StreamBlock
  | text (value : String)
  | thinking (value : String)
  | toolUse (id name input : String)
deriving DecidableEq, Repr

/-- Modelled from the spec: the inference-service boundary of §6 (`agent.ts`
is not under `src/`): one request either fails with a transport error or
streams to completion, yielding the finalized ordered content blocks of the
assistant turn. -/
abbrev ServiceResponse := Except String (List StreamBlock)

/-- Tool registry lookup by name (spec §4.2 `ToolRegistry`). -/
def findTool (reg : List ToolDef) (nm : String) : Option ToolDef :=
  reg.find? (fun t => t.name == nm)

/-- Modelled from the spec: `dispatch(toolUseBlock) -> ToolOutcome` of §4.2
(the ToolDispatcher in `agent.ts` is not under `src/`).  An unregistered name
yields `tool not found: <name>` with `isError = true`; a rejecting `execute`
yields its failure message with `isError = true`; a successful `execute`
yields its string with `isError = false`.  No case propagates a fault. -/
def dispatch (reg : List ToolDef) (u : ToolUseBlock) : ToolOutcome :=
  match findTool reg u.name with
  | none => { toolUseId := u.id, content := "tool not found: " ++ u.name, isError := true }
  | some t =>
    match t.execute u.input with
    | Except.ok s => { toolUseId := u.id, content := s, isError := false }
    | Except.error m => { toolUseId := u.id, content := m, isError := true }

/-- An observable dispatch-phase event: dispatch of a `tool_use` block begins,
or its outcome is recorded. -/
inductive DispatchEv
  | started (id : String)
  | recorded (id : String)
deriving DecidableEq, Repr

/-- Modelled from the spec: the `Dispatching` phase of §4.2/§4.5 runs the
`tool_use` blocks one at a time in stream order; the outcome of each block is
recorded before the next dispatch begins.  Returns the event trace and the
outcomes in order. -/
def dispatchSeq (reg : List ToolDef) : List ToolUseBlock → List DispatchEv × List ToolOutcome
  | [] => ([], [])
  | u :: rest =>
    let o := dispatch reg u
    let r := dispatchSeq reg rest
    (DispatchEv.started u.id :: DispatchEv.recorded u.id :: r.1, o :: r.2)

/-- The strictly sequential trace the spec prescribes: for each block in
order, its dispatch starts and then its outcome is recorded, with no overlap. -/
def seqTrace : List ToolUseBlock → List DispatchEv
  | [] => []
  | u :: rest => DispatchEv.started u.id :: DispatchEv.recorded u.id :: seqTrace rest

/-- The finalized `tool_use` blocks of an assistant stream, in stream order. -/
def toolUses : List StreamBlock → List ToolUseBlock
  | [] => []
  | StreamBlock.toolUse i n inp :: rest => { id := i, name := n, input := inp } :: toolUses rest
  | _ :: rest => toolUses rest

/-- Conversion of a finalized stream block into a conversation content block;
thinking blocks are discarded from conversation history (spec §4.3, end of
stream). -/
def toContent : StreamBlock → Option ContentBlock
  | StreamBlock.text v => some (ContentBlock.text v)
  | StreamBlock.thinking _ => none
  | StreamBlock.toolUse i n inp => some (ContentBlock.toolUse i n inp)

/-- The assistant turn appended to the conversation after one stream (spec
§4.5, `Streaming`). -/
def assistantTurn (blks : List StreamBlock) : Turn :=
  { role := Role.assistant, blocks := blks.filterMap toContent }

/-- A `ToolOutcome` folded back into the conversation as a `tool_result`
content block. -/
def outcomeToResult (o : ToolOutcome) : ContentBlock :=
  ContentBlock.toolResult o.toolUseId o.content o.isError

/-- The `user`-role turn carrying one `tool_result` per dispatched call, in
dispatch order (spec §4.5, `Dispatching`). -/
def resultTurn (reg : List ToolDef) (blks : List StreamBlock) : Turn :=
  { role := Role.user, blocks := ((dispatchSeq reg (toolUses blks)).2).map outcomeToResult }

/-- The `user` turn appended at `AwaitingInput`: one `text` block holding the
input line (spec §4.5). -/
def userTurn (input : String) : Turn :=
  { role := Role.user, blocks := [ContentBlock.text input] }

/-- Modelled from the spec: the `Requesting ↔ Dispatching` cycles of the
AgentLoop state machine of §4.5 (`agent.ts` is not under `src/`), driven by a
script of service responses, one per inference request.  A transport error
aborts the turn surfacing the message and leaves the conversation untouched;
an assistant turn without tool calls ends the cycle; otherwise the tool
results are appended as a `user` turn and the model is re-invoked. -/
def runCycles (reg : List ToolDef) : List ServiceResponse → List Turn → List Turn × Option String
  | [], conv => (conv, none)
  | Except.error msg :: _, conv => (conv, some msg)
  | Except.ok blks :: rest, conv =>
    if (toolUses blks).isEmpty
    then (conv ++ [assistantTurn blks], none)
    else runCycles reg rest (conv ++ [assistantTurn blks] ++ [resultTurn reg blks])

/-- Modelled from the spec: one full user turn of the AgentLoop (§4.5): the
input line is appended as a `user` turn, then the request/dispatch cycles
run. -/
def runTurn (reg : List ToolDef) (conv : List Turn) (input : String)
    (rs : List ServiceResponse) : List Turn × Option String :=
  runCycles reg rs (conv ++ [userTurn input])

/-- Modelled from the spec: a whole session: the loop returns to
`AwaitingInput` after every user turn (§4.5); errors surfaced along the way
are collected in order. -/
def runSession (reg : List ToolDef) :
    List (String × List ServiceResponse) → List Turn → List Turn × List String
  | [], conv => (conv, [])
  | (input, rs) :: rest, conv =>
    let r := runTurn reg conv input rs
    let rr := runSession reg rest r.1
    (rr.1, (match r.2 with | some m => [m] | none => []) ++ rr.2)

/-- The `tool_use_id` of a `tool_result` block, if any. -/
def isResultId : ContentBlock → Option String
  | ContentBlock.toolResult i _ _ => some i
  | _ => none

/-- The id of a `tool_use` block, if any. -/
def isUseId : ContentBlock → Option String
  | ContentBlock.toolUse i _ _ => some i
  | _ => none

/-- The `tool_use_id`s of the `tool_result` blocks of a turn, in order. -/
def resultIds (t : Turn) : List String := t.blocks.filterMap isResultId

/-- The ids of the `tool_use` blocks of a turn, in order. -/
def useIds (t : Turn) : List String := t.blocks.filterMap isUseId

/-- Occurrence count of a string in a list. -/
def countOcc (x : String) : List String → Nat
  | [] => 0
  | y :: ys => (if y == x then 1 else 0) + countOcc x ys

/-- Boolean membership in a list of strings. -/
def memB (x : String) : List String → Bool
  | [] => false
  | y :: ys => y == x || memB x ys

/-- All elements pairwise distinct. -/
def distinctIds : List String → Bool
  | [] => true
  | y :: ys => !(memB y ys) && distinctIds ys

/-- The ConversationState invariant of spec §3, per turn: every `tool_result`
block sits in a `user`-role turn whose immediately preceding turn is an
assistant turn containing exactly one `tool_use` with the matching id. -/
def turnOk (prev : Option Turn) (t : Turn) : Bool :=
  (resultIds t).all (fun i =>
    (match t.role with | Role.user => true | Role.assistant => false) &&
    (match prev with
     | some p =>
       (match p.role with
        | Role.assistant => countOcc i (useIds p) == 1
        | Role.user => false)
     | none => false))

/-- The invariant over the remaining turns, given the previous turn. -/
def invFrom (prev : Option Turn) : List Turn → Bool
  | [] => true
  | t :: rest => turnOk prev t && invFrom (some t) rest

/-- The ConversationState invariant over a whole conversation. -/
def convInvariant (conv : List Turn) : Bool := invFrom none conv

/-- Last turn of the list, or the given previous turn when it is empty. -/
def lastTurn (p : Option Turn) : List Turn → Option Turn
  | [] => p
  | t :: rest => lastTurn (some t) rest

/-- A well-formed service response: the finalized `tool_use` blocks of one
assistant turn carry pairwise distinct ids (guaranteed by the inference
service protocol). -/
def wfResponse : ServiceResponse → Bool
  | Except.error _ => true
  | Except.ok blks => distinctIds ((toolUses blks).map (fun u => u.id))

/-- All responses of a script are well-formed. -/
def wfScript (rs : List ServiceResponse) : Bool := rs.all wfResponse

/-- All scripts of a session are well-formed. -/
def wfSession (script : List (String × List ServiceResponse)) : Bool :=
  script.all (fun p => wfScript p.2)

end CodeAgent

namespace CodeAgent

theorem invFrom_append (ys : List Turn) :
    ∀ (xs : List Turn) (p : Option Turn),
      invFrom p (xs ++ ys) = (invFrom p xs && invFrom (lastTurn p xs) ys) := by
  intro xs
  induction xs with
  | nil => intro p; simp [invFrom, lastTurn]
  | cons t rest ih =>
    intro p
    show (turnOk p t && invFrom (some t) (rest ++ ys))
        = ((turnOk p t && invFrom (some t) rest) && invFrom (lastTurn (some t) rest) ys)
    rw [ih (some t), Bool.and_assoc]

theorem countOcc_zero_of_not_mem (x : String) :
    ∀ l, memB x l = false → countOcc x l = 0 := by
  intro l
  induction l with
  | nil => intro _; rfl
  | cons y ys ih =>
    intro h
    rw [memB, Bool.or_eq_false_iff] at h
    simp [countOcc, h.1, ih h.2]

theorem memB_of_mem (x : String) : ∀ l, x ∈ l → memB x l = true := by
  intro l
  induction l with
  | nil => intro h; cases h
  | cons y ys ih =>
    intro h
    rw [memB]
    rcases List.mem_cons.1 h with h1 | h2
    · subst h1; simp
    · rw [ih h2, Bool.or_true]

theorem countOcc_of_distinct :
    ∀ l, distinctIds l = true → ∀ x ∈ l, countOcc x l = 1 := by
  intro l
  induction l with
  | nil => intro _ x hx; cases hx
  | cons y ys ih =>
    intro hd x hx
    rw [distinctIds, Bool.and_eq_true] at hd
    have hy : memB y ys = false := by simpa using hd.1
    rcases List.mem_cons.1 hx with h1 | h2
    · subst h1
      simp [countOcc, countOcc_zero_of_not_mem x ys hy]
    · have hxy : (y == x) = false := by
        rw [beq_eq_false_iff_ne]
        intro he
        subst he
        rw [memB_of_mem y ys h2] at hy
        exact Bool.noConfusion hy
      simp [countOcc, hxy, ih hd.2 x h2]

theorem dispatch_id (reg : List ToolDef) (u : ToolUseBlock) :
    (dispatch reg u).toolUseId = u.id := by
  rw [dispatch]
  split
  · rfl
  · split <;> rfl

theorem dispatchSeq_trace (reg : List ToolDef) :
    ∀ us, (dispatchSeq reg us).1 = seqTrace us := by
  intro us
  induction us with
  | nil => rfl
  | cons u rest ih => simp [dispatchSeq, seqTrace, ih]

theorem dispatchSeq_outcomes (reg : List ToolDef) :
    ∀ us, (dispatchSeq reg us).2 = us.map (dispatch reg) := by
  intro us
  induction us with
  | nil => rfl
  | cons u rest ih => simp [dispatchSeq, ih]

theorem resultIds_of_outcomes :
    ∀ os : List ToolOutcome,
      List.filterMap isResultId (os.map outcomeToResult) = os.map (fun o => o.toolUseId) := by
  intro os
  induction os with
  | nil => rfl
  | cons o rest ih =>
    simp only [List.map_cons, List.filterMap_cons, outcomeToResult, isResultId]
    rw [ih]

theorem resultIds_resultTurn (reg : List ToolDef) (blks : List StreamBlock) :
    resultIds (resultTurn reg blks) = (toolUses blks).map (fun u => u.id) := by
  show List.filterMap isResultId (((dispatchSeq reg (toolUses blks)).2).map outcomeToResult) = _
  rw [dispatchSeq_outcomes, resultIds_of_outcomes, List.map_map]
  apply List.map_congr_left
  intro u _
  exact dispatch_id reg u

theorem useIds_assistantTurn (blks : List StreamBlock) :
    useIds (assistantTurn blks) = (toolUses blks).map (fun u => u.id) := by
  show List.filterMap isUseId (List.filterMap toContent blks) = (toolUses blks).map (fun u => u.id)
  induction blks with
  | nil => rfl
  | cons b rest ih =>
    cases b <;>
      simp only [List.filterMap_cons, toContent, isUseId, toolUses, List.map_cons] <;>
      rw [ih]

theorem resultIds_assistantTurn (blks : List StreamBlock) :
    resultIds (assistantTurn blks) = [] := by
  show List.filterMap isResultId (List.filterMap toContent blks) = []
  induction blks with
  | nil => rfl
  | cons b rest ih =>
    cases b <;> simp only [List.filterMap_cons, toContent, isResultId] <;> exact ih

theorem turnOk_no_results (prev : Option Turn) (t : Turn)
    (h : resultIds t = []) : turnOk prev t = true := by
  rw [turnOk, h]
  rfl

theorem turnOk_resultTurn (reg : List ToolDef) (blks : List StreamBlock)
    (hwf : distinctIds ((toolUses blks).map (fun u => u.id)) = true) :
    turnOk (some (assistantTurn blks)) (resultTurn reg blks) = true := by
  rw [turnOk, resultIds_resultTurn, List.all_eq_true]
  intro i hi
  show ((match (resultTurn reg blks).role with
         | Role.user => true
         | Role.assistant => false) &&
        (match (assistantTurn blks).role with
         | Role.assistant => countOcc i (useIds (assistantTurn blks)) == 1
         | Role.user => false)) = true
  rw [show (resultTurn reg blks).role = Role.user from rfl,
      show (assistantTurn blks).role = Role.assistant from rfl]
  rw [useIds_assistantTurn]
  simp [countOcc_of_distinct _ hwf i hi]

theorem invFrom_cycle (reg : List ToolDef) (blks : List StreamBlock) (q : Option Turn)
    (hwf : distinctIds ((toolUses blks).map (fun u => u.id)) = true) :
    invFrom q [assistantTurn blks, resultTurn reg blks] = true := by
  show (turnOk q (assistantTurn blks) &&
        (turnOk (some (assistantTurn blks)) (resultTurn reg blks) && true)) = true
  rw [turnOk_no_results q _ (resultIds_assistantTurn blks), turnOk_resultTurn reg blks hwf]
  rfl

theorem invFrom_single_assistant (blks : List StreamBlock) (q : Option Turn) :
    invFrom q [assistantTurn blks] = true := by
  show (turnOk q (assistantTurn blks) && true) = true
  rw [turnOk_no_results q _ (resultIds_assistantTurn blks)]
  rfl

theorem runCycles_preserves (reg : List ToolDef) :
    ∀ (rs : List ServiceResponse) (conv : List Turn),
      wfScript rs = true → convInvariant conv = true →
      convInvariant (runCycles reg rs conv).1 = true ∧
      ∃ ext, (runCycles reg rs conv).1 = conv ++ ext := by
  intro rs
  induction rs with
  | nil => intro conv _ hc; exact ⟨hc, [], by simp [runCycles]⟩
  | cons r rest ih =>
    intro conv hw hc
    rw [wfScript, List.all_cons, Bool.and_eq_true] at hw
    cases r with
    | error msg => exact ⟨hc, [], by simp [runCycles]⟩
    | ok blks =>
      have hwb : distinctIds ((toolUses blks).map (fun u => u.id)) = true := by
        simpa [wfResponse] using hw.1
      cases he : (toolUses blks).isEmpty with
      | true =>
        rw [show runCycles reg (Except.ok blks :: rest) conv
              = (conv ++ [assistantTurn blks], none) by simp [runCycles, he]]
        refine ⟨?_, [assistantTurn blks], rfl⟩
        rw [convInvariant, invFrom_append]
        rw [convInvariant] at hc
        rw [hc, invFrom_single_assistant, Bool.and_true]
      | false =>
        rw [show runCycles reg (Except.ok blks :: rest) conv
              = runCycles reg rest (conv ++ [assistantTurn blks] ++ [resultTurn reg blks])
            by simp [runCycles, he]]
        have hc2 : convInvariant (conv ++ [assistantTurn blks] ++ [resultTurn reg blks]) = true := by
          rw [List.append_assoc, List.singleton_append]
          rw [convInvariant, invFrom_append]
          rw [convInvariant] at hc
          rw [hc, invFrom_cycle reg blks _ hwb, Bool.and_true]
        obtain ⟨hi, ext, hext⟩ := ih (conv ++ [assistantTurn blks] ++ [resultTurn reg blks]) hw.2 hc2
        refine ⟨hi, [assistantTurn blks] ++ [resultTurn reg blks] ++ ext, ?_⟩
        rw [hext]
        simp

theorem userTurn_append_inv (conv : List Turn) (input : String)
    (hc : convInvariant conv = true) :
    convInvariant (conv ++ [userTurn input]) = true := by
  rw [convInvariant, invFrom_append]
  rw [convInvariant] at hc
  rw [hc]
  show (true && (turnOk (lastTurn none conv) (userTurn input) && true)) = true
  rw [turnOk_no_results (lastTurn none conv) (userTurn input) rfl]
  rfl

theorem runTurn_preserves (reg : List ToolDef) (conv : List Turn) (input : String)
    (rs : List ServiceResponse) (hw : wfScript rs = true)
    (hc : convInvariant conv = true) :
    convInvariant (runTurn reg conv input rs).1 = true ∧
    ∃ ext, (runTurn reg conv input rs).1 = conv ++ ext := by
  obtain ⟨hi, ext, hext⟩ :=
    runCycles_preserves reg rs (conv ++ [userTurn input]) hw
      (userTurn_append_inv conv input hc)
  refine ⟨hi, [userTurn input] ++ ext, ?_⟩
  rw [runTurn] at *
  rw [hext, List.append_assoc]

theorem runSession_preserves (reg : List ToolDef) :
    ∀ (script : List (String × List ServiceResponse)) (conv : List Turn),
      wfSession script = true → convInvariant conv = true →
      convInvariant (runSession reg script conv).1 = true ∧
      ∃ ext, (runSession reg script conv).1 = conv ++ ext := by
  intro script
  induction script with
  | nil => intro conv _ hc; exact ⟨hc, [], by simp [runSession]⟩
  | cons p rest ih =>
    obtain ⟨input, rs⟩ := p
    intro conv hw hc
    rw [wfSession, List.all_cons, Bool.and_eq_true] at hw
    obtain ⟨h1, ext1, hext1⟩ := runTurn_preserves reg conv input rs hw.1 hc
    obtain ⟨h2, ext2, hext2⟩ := ih (runTurn reg conv input rs).1 hw.2 h1
    refine ⟨?_, ext1 ++ ext2, ?_⟩
    · show convInvariant (runSession reg rest (runTurn reg conv input rs).1).1 = true
      exact h2
    · show (runSession reg rest (runTurn reg conv input rs).1).1 = conv ++ (ext1 ++ ext2)
      rw [hext2, hext1, List.append_assoc]

end CodeAgent

namespace CodeAgent

theorem streamRun_started (ds : List String) :
    ∀ st : ConsoleReasoning.State, st.claudeTurnStarted = true →
      ConsoleReasoning.streamRun st ds = (st, ds.map OutEvent.contentWrite) := by
  induction ds with
  | nil => intro st _; rfl
  | cons d rest ih =>
    intro st h
    simp [ConsoleReasoning.streamRun, ConsoleReasoning.claudeStream, h, ih st h]

theorem labelCount_contents (ds : List String) :
    labelCount (ds.map OutEvent.contentWrite) = 0 := by
  induction ds with
  | nil => rfl
  | cons d rest ih => simpa [labelCount] using ih

theorem streamRun_fresh (st : ConsoleReasoning.State) (h : st.claudeTurnStarted = false)
    (d : String) (ds : List String) :
    ConsoleReasoning.streamRun st (d :: ds)
      = ({ st with claudeTurnStarted := true },
         OutEvent.labelWrite :: (d :: ds).map OutEvent.contentWrite) := by
  have h2 := streamRun_started ds { st with claudeTurnStarted := true } rfl
  simp [ConsoleReasoning.streamRun, ConsoleReasoning.claudeStream, h, h2]

end CodeAgent

namespace CodeAgent

/-- C1: Priority cascade of the stage classifier.  A text containing both an
Evaluating-family token and any token of a lower-priority family classifies as
`evaluating`; the analogous laws hold pairwise down the priority list
(Executing over Deciding/Planning, Deciding over Planning); and the concrete
scenario text classifies as `evaluating`. -/
theorem stage_priority_cascade (s : String) :
    (hasEvalFamily s = true →
      (hasExecFamily s = true ∨ hasDecidFamily s = true ∨ hasPlanFamily s = true) →
      detectReasoningStage s = ReasoningStage.evaluating) ∧
    (hasExecFamily s = true → hasEvalFamily s = false →
      (hasDecidFamily s = true ∨ hasPlanFamily s = true) →
      detectReasoningStage s = ReasoningStage.executing) ∧
    (hasDecidFamily s = true → hasEvalFamily s = false → hasExecFamily s = false →
      hasPlanFamily s = true →
      detectReasoningStage s = ReasoningStage.deciding) ∧
    detectReasoningStage "I\x27m analyzing and evaluating this solution"
      = ReasoningStage.evaluating := by
  refine ⟨?_, ?_, ?_, by decide⟩
  · intro h _
    simp [detectReasoningStage, h]
  · intro h he _
    simp [detectReasoningStage, h, he]
  · intro h he hx _
    simp [detectReasoningStage, h, he, hx]

/-- C1 witness: the cascade applied at concrete inputs holding tokens of two
families each. -/
theorem stage_priority_cascade_witness :
    detectReasoningStage "checking the plan" = ReasoningStage.evaluating ∧
    detectReasoningStage "execute the plan" = ReasoningStage.executing ∧
    detectReasoningStage "decide on a plan" = ReasoningStage.deciding :=
  ⟨(stage_priority_cascade "checking the plan").1 (by decide)
     (Or.inr (Or.inr (by decide))),
   (stage_priority_cascade "execute the plan").2.1 (by decide) (by decide)
     (Or.inr (by decide)),
   (stage_priority_cascade "decide on a plan").2.2.1 (by decide) (by decide)
     (by decide) (by decide)⟩

/-- C2: Sequential ordered dispatch.  In one `Dispatching` phase the
`tool_use` blocks are dispatched strictly in stream order, one at a time (the
trace records the start of block k+1 only after the outcome of block k), the
outcomes carry the ids in the same order, the `tool_result` blocks of the next
`user` turn preserve that order, and the loop then re-issues a request. -/
theorem sequential_ordered_dispatch (reg : List ToolDef) (blks : List StreamBlock)
    (conv : List Turn) (rest : List ServiceResponse)
    (hne : (toolUses blks).isEmpty = false) :
    (dispatchSeq reg (toolUses blks)).1 = seqTrace (toolUses blks) ∧
    ((dispatchSeq reg (toolUses blks)).2).map (fun o => o.toolUseId)
      = (toolUses blks).map (fun u => u.id) ∧
    resultIds (resultTurn reg blks) = (toolUses blks).map (fun u => u.id) ∧
    (resultTurn reg blks).role = Role.user ∧
    runCycles reg (Except.ok blks :: rest) conv
      = runCycles reg rest (conv ++ [assistantTurn blks] ++ [resultTurn reg blks]) := by
  refine ⟨dispatchSeq_trace reg _, ?_, resultIds_resultTurn reg blks, rfl,
    by simp [runCycles, hne]⟩
  rw [dispatchSeq_outcomes, List.map_map]
  apply List.map_congr_left
  intro u _
  exact dispatch_id reg u

/-- C2 witness: two tool calls `A` then `B` dispatched in order. -/
theorem sequential_ordered_dispatch_witness :
    (dispatchSeq [] (toolUses [StreamBlock.toolUse "A" "t1" "",
        StreamBlock.toolUse "B" "t2" ""])).1
      = seqTrace (toolUses [StreamBlock.toolUse "A" "t1" "",
          StreamBlock.toolUse "B" "t2" ""]) ∧
    ((dispatchSeq [] (toolUses [StreamBlock.toolUse "A" "t1" "",
        StreamBlock.toolUse "B" "t2" ""])).2).map (fun o => o.toolUseId)
      = (toolUses [StreamBlock.toolUse "A" "t1" "",
          StreamBlock.toolUse "B" "t2" ""]).map (fun u => u.id) ∧
    resultIds (resultTurn [] [StreamBlock.toolUse "A" "t1" "",
        StreamBlock.toolUse "B" "t2" ""])
      = (toolUses [StreamBlock.toolUse "A" "t1" "",
          StreamBlock.toolUse "B" "t2" ""]).map (fun u => u.id) ∧
    (resultTurn [] [StreamBlock.toolUse "A" "t1" "",
        StreamBlock.toolUse "B" "t2" ""]).role = Role.user ∧
    runCycles [] (Except.ok [StreamBlock.toolUse "A" "t1" "",
        StreamBlock.toolUse "B" "t2" ""] :: []) []
      = runCycles [] []
          ([] ++ [assistantTurn [StreamBlock.toolUse "A" "t1" "",
              StreamBlock.toolUse "B" "t2" ""]]
            ++ [resultTurn [] [StreamBlock.toolUse "A" "t1" "",
                StreamBlock.toolUse "B" "t2" ""]]) :=
  sequential_ordered_dispatch [] [StreamBlock.toolUse "A" "t1" "",
    StreamBlock.toolUse "B" "t2" ""] [] [] (by decide)

/-- C3: ConversationState invariant.  Every conversation reachable by the
agent loop (from the empty conversation through whole sessions, and from any
invariant-satisfying conversation through one user turn) satisfies the
invariant that each `tool_result` block sits in a `user` turn immediately
following the assistant turn holding exactly one matching `tool_use`; and a
loop run only appends to the conversation. -/
theorem conversation_state_invariant (reg : List ToolDef)
    (script : List (String × List ServiceResponse)) (conv : List Turn)
    (input : String) (rs : List ServiceResponse)
    (hws : wfSession script = true) (hwr : wfScript rs = true)
    (hc : convInvariant conv = true) :
    convInvariant (runSession reg script []).1 = true ∧
    convInvariant (runTurn reg conv input rs).1 = true ∧
    ∃ ext, (runTurn reg conv input rs).1 = conv ++ ext := by
  obtain ⟨h1, -⟩ := runSession_preserves reg script [] hws rfl
  obtain ⟨h2, ext, hext⟩ := runTurn_preserves reg conv input rs hwr hc
  exact ⟨h1, h2, ext, hext⟩

/-- C3 witness: a concrete session of one turn with one tool call. -/
theorem conversation_state_invariant_witness :
    convInvariant (runSession []
      [("hi", [Except.ok [StreamBlock.toolUse "A" "t1" ""],
               Except.ok [StreamBlock.text "done"]])] []).1 = true ∧
    convInvariant (runTurn [] [] "hi"
      [Except.ok [StreamBlock.toolUse "A" "t1" ""],
       Except.ok [StreamBlock.text "done"]]).1 = true ∧
    ∃ ext, (runTurn [] [] "hi"
      [Except.ok [StreamBlock.toolUse "A" "t1" ""],
       Except.ok [StreamBlock.text "done"]]).1 = [] ++ ext :=
  conversation_state_invariant []
    [("hi", [Except.ok [StreamBlock.toolUse "A" "t1" ""],
             Except.ok [StreamBlock.text "done"]])] [] "hi"
    [Except.ok [StreamBlock.toolUse "A" "t1" ""],
     Except.ok [StreamBlock.text "done"]] (by decide) (by decide) (by decide)

/-- C4: Transport-error atomicity.  An error raised at `Requesting`/`Streaming`
leaves the conversation exactly as it was before the failed request (no
partial assistant turn is appended), surfaces the error message, and the
session resumes at `AwaitingInput` with the next user input. -/
theorem transport_error_atomicity (reg : List ToolDef) (msg : String)
    (rest : List ServiceResponse) (conv : List Turn) (input : String)
    (script : List (String × List ServiceResponse)) :
    runCycles reg (Except.error msg :: rest) conv = (conv, some msg) ∧
    runTurn reg conv input (Except.error msg :: rest)
      = (conv ++ [userTurn input], some msg) ∧
    runSession reg ((input, Except.error msg :: rest) :: script) conv
      = ((runSession reg script (conv ++ [userTurn input])).1,
         msg :: (runSession reg script (conv ++ [userTurn input])).2) := by
  refine ⟨rfl, rfl, ?_⟩
  simp [runSession, runTurn, runCycles]

/-- C5: Total, non-throwing tool dispatch.  An unregistered name yields the
fixed `tool not found` outcome (concretely for `frobnicate`), a rejecting
`execute` yields its message with `isError = true`, a successful one its
result with `isError = false`, and after a dispatching cycle the loop issues
the next request with the results appended instead of terminating. -/
theorem tool_dispatch_total (reg : List ToolDef) (u : ToolUseBlock) (t : ToolDef)
    (m s : String) (conv : List Turn) (rest : List ServiceResponse)
    (blks : List StreamBlock) :
    (findTool reg u.name = none →
      dispatch reg u
        = { toolUseId := u.id, content := "tool not found: " ++ u.name, isError := true }) ∧
    dispatch [] { id := "toolu_1", name := "frobnicate", input := "" }
      = { toolUseId := "toolu_1", content := "tool not found: frobnicate", isError := true } ∧
    (findTool reg u.name = some t → t.execute u.input = Except.error m →
      dispatch reg u = { toolUseId := u.id, content := m, isError := true }) ∧
    (findTool reg u.name = some t → t.execute u.input = Except.ok s →
      dispatch reg u = { toolUseId := u.id, content := s, isError := false }) ∧
    ((toolUses blks).isEmpty = false →
      runCycles reg (Except.ok blks :: rest) conv
        = runCycles reg rest (conv ++ [assistantTurn blks] ++ [resultTurn reg blks])) := by
  refine ⟨?_, by decide, ?_, ?_, ?_⟩
  · intro h
    rw [dispatch, h]
  · intro h hx
    simp only [dispatch, h, hx]
  · intro h hx
    simp only [dispatch, h, hx]
  · intro h
    simp [runCycles, h]

/-- A concrete tool whose `execute` always rejects. -/
def bombTool : ToolDef := { name := "bomb", execute := fun _ => Except.error "boom" }

/-- A concrete tool whose `execute` echoes its input. -/
def echoTool : ToolDef := { name := "echo", execute := fun inp => Except.ok inp }

/-- C5 witness: dispatch at an unregistered name, a rejecting tool and a
succeeding tool, and one dispatching cycle that proceeds to the next request. -/
theorem tool_dispatch_total_witness :
    dispatch [bombTool, echoTool] { id := "id1", name := "frobnicate", input := "" }
      = { toolUseId := "id1", content := "tool not found: frobnicate", isError := true } ∧
    dispatch [bombTool, echoTool] { id := "id2", name := "bomb", input := "x" }
      = { toolUseId := "id2", content := "boom", isError := true } ∧
    dispatch [bombTool, echoTool] { id := "id3", name := "echo", input := "y" }
      = { toolUseId := "id3", content := "y", isError := false } ∧
    runCycles [bombTool, echoTool] [Except.ok [StreamBlock.toolUse "id2" "bomb" "x"]] []
      = runCycles [bombTool, echoTool] []
          ([] ++ [assistantTurn [StreamBlock.toolUse "id2" "bomb" "x"]]
            ++ [resultTurn [bombTool, echoTool] [StreamBlock.toolUse "id2" "bomb" "x"]]) :=
  ⟨(tool_dispatch_total [bombTool, echoTool]
      { id := "id1", name := "frobnicate", input := "" } bombTool "m" "s" [] [] []).1 rfl,
   (tool_dispatch_total [bombTool, echoTool]
      { id := "id2", name := "bomb", input := "x" } bombTool "boom" "s" [] [] []).2.2.1 rfl rfl,
   (tool_dispatch_total [bombTool, echoTool]
      { id := "id3", name := "echo", input := "y" } echoTool "m" "y" [] [] []).2.2.2.1 rfl rfl,
   (tool_dispatch_total [bombTool, echoTool]
      { id := "id0", name := "n", input := "" } bombTool "m" "s" [] []
      [StreamBlock.toolUse "id2" "bomb" "x"]).2.2.2.2 rfl⟩

/-- C6: Totality and determinism of the stage classifier.  For every input
string the classifier is a total function returning one of the five stages, it
is deterministic (equal inputs give equal stages), it returns `analyzing` on
the empty string, and it returns `analyzing` on any text containing no
recognizable keyword of any family. -/
theorem classify_total_deterministic (s t : String) :
    (detectReasoningStage s = ReasoningStage.analyzing ∨
     detectReasoningStage s = ReasoningStage.planning ∨
     detectReasoningStage s = ReasoningStage.deciding ∨
     detectReasoningStage s = ReasoningStage.executing ∨
     detectReasoningStage s = ReasoningStage.evaluating) ∧
    (s = t → detectReasoningStage s = detectReasoningStage t) ∧
    detectReasoningStage "" = ReasoningStage.analyzing ∧
    (hasEvalFamily s = false → hasExecFamily s = false → hasDecidFamily s = false →
      hasPlanFamily s = false → detectReasoningStage s = ReasoningStage.analyzing) := by
  refine ⟨?_, ?_, by decide, ?_⟩
  · cases h : detectReasoningStage s <;> simp
  · intro h
    rw [h]
  · intro h1 h2 h3 h4
    simp [detectReasoningStage, h1, h2, h3, h4]

/-- C6 witness: determinism and the keyword-free default at a concrete
keyword-free input. -/
theorem classify_total_deterministic_witness :
    detectReasoningStage "xy" = detectReasoningStage "xy" ∧
    detectReasoningStage "xy" = ReasoningStage.analyzing :=
  ⟨(classify_total_deterministic "xy" "xy").2.1 rfl,
   (classify_total_deterministic "xy" "xy").2.2.2 (by decide) (by decide)
     (by decide) (by decide)⟩

/-- C7 counterexample: `implementation` and `implements` each contain a word
matching `implement*` (in the sense of an arbitrary suffix) and no
Evaluating-family token, yet the classifier returns `analyzing`, not
`executing`: the source regex accepts only the suffixes `ing`/`ed`/empty after
`implement`. -/
theorem executing_family_counterexample :
    detectReasoningStage "implementation" = ReasoningStage.analyzing ∧
    detectReasoningStage "implementation" ≠ ReasoningStage.executing ∧
    hasEvalFamily "implementation" = false ∧
    detectReasoningStage "implements" = ReasoningStage.analyzing ∧
    hasEvalFamily "implements" = false := by decide

/-- C7 (amended): for every text containing an Executing-family token in the
sense of the source regex — a word beginning `execut`, or one of the whole
words `implement`, `implementing`, `implemented`, `write`, `writing`,
`written` — and no Evaluating-family token, the classifier returns
`executing`. -/
theorem executing_family_coverage (s : String)
    (hx : hasExecFamily s = true) (he : hasEvalFamily s = false) :
    detectReasoningStage s = ReasoningStage.executing := by
  simp [detectReasoningStage, hx, he]

/-- C7 witness: a concrete Executing-family text. -/
theorem executing_family_coverage_witness :
    detectReasoningStage "writing code" = ReasoningStage.executing :=
  executing_family_coverage "writing code" (by decide) (by decide)

/-- C8 counterexample: `classify "write" = executing`, the fragment `"r"`
contains no stage keyword, yet `classify ("write" ++ "r") = analyzing` — the
appended word character destroys the whole-word match `write` at the seam, so
the classification moves to a lower-priority stage although no keyword of
higher or equal priority became newly present. -/
theorem append_stability_counterexample :
    detectReasoningStage "write" = ReasoningStage.executing ∧
    noStageKeyword "r" = true ∧
    detectReasoningStage ("write" ++ "r") = ReasoningStage.analyzing := by decide

/-- C8 (amended): appending a fragment that begins with a non-word character
(whitespace or punctuation) and contains no stage keyword never changes the
classification of the accumulated text. -/
theorem classify_append_stable (s t : String)
    (h1 : headNonWord t = true) (h2 : noStageKeyword t = true) :
    detectReasoningStage (s ++ t) = detectReasoningStage s := by
  have h2' : (hasEvalFamily t || hasExecFamily t || hasDecidFamily t
      || hasPlanFamily t) = false := by
    simpa [noStageKeyword] using h2
  rw [Bool.or_eq_false_iff, Bool.or_eq_false_iff, Bool.or_eq_false_iff] at h2'
  simp only [detectReasoningStage, hasEvalFamily_append s t h1,
    hasExecFamily_append s t h1, hasDecidFamily_append s t h1,
    hasPlanFamily_append s t h1, h2'.1.1.1, h2'.1.1.2, h2'.1.2, h2'.2,
    Bool.or_false]

/-- C8 witness: appending keyword-free text after a space leaves a
Planning-classified accumulation at `planning`. -/
theorem classify_append_stable_witness :
    detectReasoningStage ("plan the task" ++ " extra words")
      = detectReasoningStage "plan the task" :=
  classify_append_stable "plan the task" " extra words" (by decide) (by decide)

/-- C9: Turn label invariant.  Starting a turn with the label flag clear, a
nonempty sequence of text deltas emits the speaker label exactly once — on the
first delta — and every delta writes raw content only; `finishClaudeTurn`
clears the flag again, so the next nonempty delta sequence emits the label
exactly once more. -/
theorem turn_label_invariant (st : ConsoleReasoning.State) (ds ds2 : List String)
    (h0 : st.claudeTurnStarted = false) (h1 : ds ≠ []) (h2 : ds2 ≠ []) :
    (ConsoleReasoning.streamRun st ds).2
      = OutEvent.labelWrite :: ds.map OutEvent.contentWrite ∧
    labelCount (ConsoleReasoning.streamRun st ds).2 = 1 ∧
    (ConsoleReasoning.finishClaudeTurn
      (ConsoleReasoning.streamRun st ds).1).1.claudeTurnStarted = false ∧
    labelCount (ConsoleReasoning.streamRun
      (ConsoleReasoning.finishClaudeTurn
        (ConsoleReasoning.streamRun st ds).1).1 ds2).2 = 1 := by
  obtain ⟨d, ds', rfl⟩ : ∃ d ds', ds = d :: ds' := by
    cases ds with
    | nil => exact absurd rfl h1
    | cons a b => exact ⟨a, b, rfl⟩
  obtain ⟨e, es, rfl⟩ : ∃ e es, ds2 = e :: es := by
    cases ds2 with
    | nil => exact absurd rfl h2
    | cons a b => exact ⟨a, b, rfl⟩
  rw [streamRun_fresh st h0 d ds']
  refine ⟨rfl, ?_, rfl, ?_⟩
  · show labelCount (OutEvent.labelWrite :: (d :: ds').map OutEvent.contentWrite) = 1
    simp [labelCount, labelCount_contents]
  · rw [show (ConsoleReasoning.finishClaudeTurn
        (({ st with claudeTurnStarted := true },
          OutEvent.labelWrite :: (d :: ds').map OutEvent.contentWrite) :
            ConsoleReasoning.State × List OutEvent).1).1
        = { claudeTurnStarted := false, reasoningBlockActive := false } from rfl]
    rw [streamRun_fresh _ rfl e es]
    simp [labelCount, labelCount_contents]

/-- C9 witness: two deltas in the first turn, one in the next. -/
theorem turn_label_invariant_witness :
    (ConsoleReasoning.streamRun ⟨false, false⟩ ["Hello", " world"]).2
      = OutEvent.labelWrite :: ["Hello", " world"].map OutEvent.contentWrite ∧
    labelCount (ConsoleReasoning.streamRun ⟨false, false⟩ ["Hello", " world"]).2 = 1 ∧
    (ConsoleReasoning.finishClaudeTurn
      (ConsoleReasoning.streamRun ⟨false, false⟩ ["Hello", " world"]).1).1.claudeTurnStarted
        = false ∧
    labelCount (ConsoleReasoning.streamRun
      (ConsoleReasoning.finishClaudeTurn
        (ConsoleReasoning.streamRun ⟨false, false⟩ ["Hello", " world"]).1).1 ["Hi"]).2 = 1 :=
  turn_label_invariant ⟨false, false⟩ ["Hello", " world"] ["Hi"] rfl
    (by decide) (by decide)

/-- C10: `finishClaudeTurn` is a no-op on an unstarted turn and idempotent.
With the flag clear it prints nothing and leaves the flag clear (in
`console_reasoning` additionally always clearing `reasoningBlockActive`), and
two consecutive calls emit the turn-closing newline at most once, in both the
base `console.ts` version and the reasoning version. -/
theorem finish_turn_idempotent (st : ConsoleReasoning.State) (b : Bool)
    (h : st.claudeTurnStarted = false) (hb : b = false) :
    (ConsoleReasoning.finishClaudeTurn st).2 = [] ∧
    (ConsoleReasoning.finishClaudeTurn st).1.claudeTurnStarted = false ∧
    (∀ st2 : ConsoleReasoning.State,
      (ConsoleReasoning.finishClaudeTurn st2).1.reasoningBlockActive = false ∧
      newlineCount (ConsoleReasoning.finishClaudeTurn st2).2 +
        newlineCount (ConsoleReasoning.finishClaudeTurn
          (ConsoleReasoning.finishClaudeTurn st2).1).2 ≤ 1) ∧
    ConsoleOut.finishClaudeTurn b = (false, []) ∧
    (∀ b2 : Bool,
      newlineCount (ConsoleOut.finishClaudeTurn b2).2 +
        newlineCount (ConsoleOut.finishClaudeTurn
          (ConsoleOut.finishClaudeTurn b2).1).2 ≤ 1) := by
  subst hb
  refine ⟨?_, ?_, ?_, rfl, ?_⟩
  · simp [ConsoleReasoning.finishClaudeTurn, h]
  · simp [ConsoleReasoning.finishClaudeTurn, h]
  · intro st2
    obtain ⟨c2, r2⟩ := st2
    cases c2 <;> simp [ConsoleReasoning.finishClaudeTurn, newlineCount]
  · intro b2
    cases b2 <;> simp [ConsoleOut.finishClaudeTurn, newlineCount]

/-- C10 witness: the no-op and idempotence at concrete states. -/
theorem finish_turn_idempotent_witness :
    (ConsoleReasoning.finishClaudeTurn ⟨false, true⟩).2 = [] ∧
    (ConsoleReasoning.finishClaudeTurn ⟨false, true⟩).1.claudeTurnStarted = false ∧
    (∀ st2 : ConsoleReasoning.State,
      (ConsoleReasoning.finishClaudeTurn st2).1.reasoningBlockActive = false ∧
      newlineCount (ConsoleReasoning.finishClaudeTurn st2).2 +
        newlineCount (ConsoleReasoning.finishClaudeTurn
          (ConsoleReasoning.finishClaudeTurn st2).1).2 ≤ 1) ∧
    ConsoleOut.finishClaudeTurn false = (false, []) ∧
    (∀ b2 : Bool,
      newlineCount (ConsoleOut.finishClaudeTurn b2).2 +
        newlineCount (ConsoleOut.finishClaudeTurn
          (ConsoleOut.finishClaudeTurn b2).1).2 ≤ 1) :=
  finish_turn_idempotent ⟨false, true⟩ false rfl rfl

end CodeAgent
